import Mathlib

/-!
Verification of the decision-tree induction engine and the dataset
abstraction of a small supervised-learning toolkit (`learning.py`),
via a shallow embedding in Lean.

Conventions of the embedding:
* A row (example) is a `List (Option V)`: `some v` is an ordinary
  attribute value, `none` is Python's `None` (the sentinel that
  `sanitize` writes over non-input attributes).
* Indexing `example[a]` is `getA`, total with default `none`; claims are
  stated within the bounds the Python code exercises.
* Python exceptions are modelled with `Option` / `Except` results.
* `random.choice`, `random.shuffle` and random tie-breaking are modelled
  by explicit function parameters (`pick`, `choose`, `shuffle`), so the
  theorems quantify over every behaviour the random source can produce.
* Float arithmetic is idealised: exact `ℚ` for ratios of counts, `ℝ` for
  the entropy computations.
-/

set_option linter.unusedSectionVars false

namespace Aima

variable {V : Type} [DecidableEq V]

/-! ### Definitions -/

/-- Row indexing `example[a]`, with Python `None` as the default. -/
def getA (e : List (Option V)) (a : Nat) : Option V := e.getD a none

/-- Name indexing `attrnames[a]`. -/
def getS (l : List String) (a : Nat) : String := l.getD a ""

/-- Modelled from the spec: the missing utils helper `removeall item seq`,
a copy of `seq` with every occurrence of `item` removed (the spec's
"`remaining_attrs` minus `A`"). -/
def removeall [DecidableEq α] (x : α) (l : List α) : List α :=
  l.filter (fun y => y ≠ x)

/-- Modelled from the spec: the missing utils helper `unique seq` — "the
set of distinct values seen" in a sequence. -/
def uniqueVals [DecidableEq α] (l : List α) : List α := l.dedup

/-- The fields of `DataSet` that the verified operations read. -/
structure DataSet (V : Type) where
  examples : List (List (Option V))
  attrs : List Nat
  attrnames : List String
  target : Nat
  inputs : List Nat
  values : List (List (Option V))

/-- Recursion mirroring `enumerate(example)` inside `sanitize`:
position `i` (counted from `i0`) keeps its value iff `i` is an input. -/
def sanitizeAux (inputs : List Nat) : Nat → List (Option V) → List (Option V)
  | _, [] => []
  | i, x :: xs => (if i ∈ inputs then x else none) :: sanitizeAux inputs (i + 1) xs

/-- Embedding of `DataSet.sanitize`: a copy of `example` with non-input attributes
replaced by `None`. -/
def DataSet.sanitize (d : DataSet V) (e : List (Option V)) : List (Option V) :=
  sanitizeAux d.inputs 0 e

/-- Embedding of `DataSet.check_example`: when `values` is populated, scan `attrs` in
order and raise `ValueError` (modelled as `Except.error` carrying the
offending value and the attribute's name) at the first attribute whose
value in `example` is outside its value set. -/
def DataSet.check_example (d : DataSet V) (e : List (Option V)) :
    Except (Option V × String) Unit :=
  if d.values = [] then .ok ()
  else
    match d.attrs.find? (fun a => ! decide (getA e a ∈ d.values.getD a [])) with
    | some a => .error (getA e a, getS d.attrnames a)
    | none => .ok ()

/-- Embedding of `DataSet.add_example`: check the example first, then append it.  The
second component is the dataset state after the call (unchanged when the
check raises). -/
def DataSet.add_example (d : DataSet V) (e : List (Option V)) :
    Except (Option V × String) Unit × DataSet V :=
  match d.check_example e with
  | .error err => (.error err, d)
  | .ok _ => (.ok (), { d with examples := d.examples ++ [e] })

/-- Embedding of `test(predict, dataset, examples)`: the proportion of `examples` whose
prediction on the sanitized row equals the row's target value.  An empty
example list short-circuits to `0.0`.  A predictor that raises is
modelled by `none`, which propagates to the result. -/
def test (predict : List (Option V) → Option (Option V)) (d : DataSet V)
    (examples : List (List (Option V))) : Option ℚ :=
  if examples.length = 0 then some 0
  else
    (examples.mapM (fun e => predict (d.sanitize e))).map (fun outs =>
      (((examples.zip outs).countP
          (fun p => decide (p.2 = getA p.1 d.target))) : ℚ) / examples.length)

/-- Embedding of `train_and_test`: hold out `examples[start:end]`, train on the rest,
score on the held-out slice; the `finally` block restores
`dataset.examples`, so the returned dataset state has the original
examples regardless of outcome. -/
def train_and_test (learner : DataSet V → List (Option V) → Option (Option V))
    (d : DataSet V) (start stop : Nat) : Option ℚ × DataSet V :=
  let examples := d.examples
  let dTrain : DataSet V := { d with examples := examples.take start ++ examples.drop stop }
  (test (learner dTrain) dTrain ((examples.drop start).take (stop - start)),
   { dTrain with examples := examples })

/-- Modelled from the spec: the missing utils helper `mean` — the average
of a list of numbers. -/
def meanQ (l : List ℚ) : ℚ := l.sum / l.length

/-- Embedding of `cross_validation` (single-trial path, explicit fold count `k`):
shuffle the dataset's examples in place, then average `train_and_test`
over the `k` contiguous folds.  The in-place `random.shuffle` is the
`shuffle` parameter; the dataset state is threaded through the folds and
returned. -/
def cross_validation (shuffle : List (List (Option V)) → List (List (Option V)))
    (learner : DataSet V → List (Option V) → Option (Option V))
    (d : DataSet V) (k : Nat) : Option ℚ × DataSet V :=
  let n := d.examples.length
  let d1 : DataSet V := { d with examples := shuffle d.examples }
  let folds := (List.range k).foldl
    (fun (acc : Option (List ℚ) × DataSet V) i =>
      let r := train_and_test learner acc.2 (i * (n / k)) ((i + 1) * (n / k))
      ((match acc.1, r.1 with
        | some qs, some q => some (qs ++ [q])
        | _, _ => none), r.2))
    ((some [] : Option (List ℚ)), d1)
  ((folds.1).map meanQ, folds.2)

/-- Embedding of `leave1out`: cross-validation with as many folds as examples. -/
def leave1out (shuffle : List (List (Option V)) → List (List (Option V)))
    (learner : DataSet V → List (Option V) → Option (Option V))
    (d : DataSet V) : Option ℚ × DataSet V :=
  cross_validation shuffle learner d d.examples.length

/-- Embedding of `setproblem`'s value computation `map(unique, zip(*examples))` for a
dataset of row width `w`.  Modelled from the spec for the missing
`unique`: one value set per attribute, "the set of distinct values seen"
in that attribute's column. -/
def computeValues (examples : List (List (Option V))) (w : Nat) :
    List (List (Option V)) :=
  (List.range w).map (fun a => uniqueVals (examples.map (fun e => getA e a)))

/-- Concrete dataset used by witnesses about `sanitize`. -/
def dW8 : DataSet Nat :=
  { examples := [], attrs := [0, 1, 2], attrnames := ["a", "b", "c"],
    target := 2, inputs := [0, 1], values := [] }

/-- Concrete dataset used by the `add_example` witness. -/
def dW6 : DataSet Nat :=
  { examples := [[some 0, some 1]], attrs := [0, 1], attrnames := ["x", "y"],
    target := 1, inputs := [0], values := [[some 0], [some 1]] }

/-- Concrete dataset used by the round-trip witness: `values` is computed
from the examples themselves. -/
def dW9 : DataSet Nat :=
  { examples := [[some 1, some 2], [some 1, some 3]], attrs := [0, 1],
    attrnames := ["x", "y"], target := 1, inputs := [0],
    values := computeValues [[some 1, some 2], [some 1, some 3]] 2 }

/-- Decision-tree nodes: `DecisionFork` / `DecisionLeaf` as a closed
tagged union.  A fork's branches are the association list built by the
induction loop's `tree.add` calls, in insertion order. -/
inductive DTree (V : Type) where
  | leaf (result : Option V)
  | fork (attr : Nat) (attrname : String) (branches : List (Option V × DTree V))

mutual

/-- Embedding of `DecisionFork.__call__` / `DecisionLeaf.__call__`: classify an
example by walking the branch selected by `example[attr]`; a missing
branch is Python's `KeyError`, modelled by `none`. -/
def DTree.predictT : DTree V → List (Option V) → Option (Option V)
  | .leaf r, _ => some r
  | .fork a _ bs, e => predictB (getA e a) bs e

/-- Dictionary lookup over the branch list (first matching key wins),
continuing the classification in the matching subtree. -/
def predictB (key : Option V) : List (Option V × DTree V) → List (Option V) → Option (Option V)
  | [], _ => none
  | p :: ps, e => if p.1 = key then p.2.predictT e else predictB key ps e

end

/-- Fold maximum of a list of naturals (the maximal score that
`argmax_random_tie` ties on). -/
def listMaxN (l : List Nat) : Nat := l.foldr Nat.max 0

/-- Modelled from the spec: the missing utils helper
`argmax_random_tie seq fn` — an element of `seq` of maximal `fn` score,
ties "broken uniformly at random among maximal values".  The random draw
is the `pick` parameter (an arbitrary selection from the list of tied
maxima); `none` models the exception raised on an empty sequence. -/
def argmax_random_tie [DecidableEq α] (pick : List α → Option α)
    (seq : List α) (fn : α → Nat) : Option α :=
  match seq with
  | [] => none
  | _ :: _ => pick (seq.filter (fun x => fn x = listMaxN (seq.map fn)))

/-- The tree learner's inner `count attr val examples`. -/
def countV (a : Nat) (v : Option V) (examples : List (List (Option V))) : Nat :=
  examples.countP (fun e => decide (getA e a = v))

/-- Embedding of `plurality_value`: a fresh leaf holding the most popular target value
of the examples — `argmax_random_tie` over `values[target]` scored by
`count`, with the random draw `pick`. -/
def plurality_value (pick : List (Option V) → Option (Option V)) (d : DataSet V)
    (examples : List (List (Option V))) : Option (DTree V) :=
  (argmax_random_tie pick (d.values.getD d.target [])
      (fun v => countV d.target v examples)).map DTree.leaf

/-- Embedding of `decision_tree_learning` (Fig 18.5).  `choose` stands for the nested
`choose_attribute` (information-gain argmax with random tie-break): the
theorems quantify over every selector returning a member of `attrs`,
which covers every tie-break outcome of the real scoring.  `pick` is the
random draw inside `plurality_value`.  `none` models an uncaught
exception.  `fuel` is a structural-recursion bound only: every recursive
call strictly shrinks `attrs`, and every entry point supplies
`attrs.length + 1`, so the `fuel = 0` branch is unreachable (proved in
`dtl_fuel_irrelevant`-style arguments below). -/
def decision_tree_learning (pick : List (Option V) → Option (Option V))
    (choose : List Nat → List (List (Option V)) → Option Nat) (d : DataSet V) :
    Nat → List (List (Option V)) → List Nat → List (List (Option V)) → Option (DTree V)
  | 0, _, _, _ => none
  | _ + 1, [], _, parent => plurality_value pick d parent
  | fuel + 1, e0 :: rest, attrs, _ =>
    if (e0 :: rest).all (fun e => decide (getA e d.target = getA e0 d.target)) then
      some (DTree.leaf (getA e0 d.target))
    else if attrs.length = 0 then
      plurality_value pick d (e0 :: rest)
    else
      match choose attrs (e0 :: rest) with
      | none => none
      | some A =>
        if A ∈ attrs then
          ((d.values.getD A []).mapM (fun v =>
              (decision_tree_learning pick choose d fuel
                  ((e0 :: rest).filter (fun e => decide (getA e A = v)))
                  (removeall A attrs) (e0 :: rest)).map (fun t => (v, t)))).map
            (fun bs => DTree.fork A (getS d.attrnames A) bs)
        else none

/-- Embedding of `DecisionTreeLearner(dataset)`: run the induction on the dataset's own
examples and input attributes (initial `parent_examples = ()`), with
enough fuel for the deepest possible recursion. -/
def DecisionTreeLearner (pick : List (Option V) → Option (Option V))
    (choose : List Nat → List (List (Option V)) → Option Nat)
    (d : DataSet V) : Option (DTree V) :=
  decision_tree_learning pick choose d (d.inputs.length + 1) d.examples d.inputs []

/-- Branch keys of a tree's root (a leaf has none). -/
def branchKeys : DTree V → List (Option V)
  | .leaf _ => []
  | .fork _ _ bs => bs.map Prod.fst

/-- A concrete deterministic instance of the random draw: always take
the first element (`random.choice` can behave this way). -/
def pickHead (l : List α) : Option α := l.head?

/-- A concrete deterministic instance of the attribute selector: the
first remaining attribute (`choose_attribute` behaves this way whenever
the first attribute attains the maximal gain). -/
def chooseHead (attrs : List Nat) (_exs : List (List (Option V))) : Option Nat :=
  attrs.head?

/-- Concrete dataset refuting the claim as stated: `values[0]` contains
the value `2`, which occurs in no example. -/
def dC2 : DataSet Nat :=
  { examples := [[some 0, some 0], [some 1, some 1]], attrs := [0, 1],
    attrnames := ["x", "y"], target := 1, inputs := [0],
    values := [[some 0, some 1, some 2], [some 0, some 1]] }

/-- Concrete dataset refuting claim C1 as stated: the empty dataset
(legal when `attrs` and `values` are supplied explicitly) vacuously
satisfies "no two examples share identical input values while differing
on the target". -/
def dC1 : DataSet Nat :=
  { examples := [], attrs := [0, 1], attrnames := ["x", "y"],
    target := 1, inputs := [0], values := [[some 0], [some 1]] }

/-- The Naive Bayes count table `_N[targetval][attr][val]`: how many
training examples have the given target value and value `v` at attribute
`a`.  A key absent from the table yields 0 (the learner's `N` catches
the `KeyError`); the table only has keys in `values[target]` and
`values[a]`. -/
def NBN (d : DataSet V) (t : Option V) (a : Nat) (v : Option V) : Nat :=
  if t ∈ d.values.getD d.target [] ∧ v ∈ d.values.getD a [] then
    d.examples.countP (fun e => decide (getA e d.target = t ∧ getA e a = v))
  else 0

/-- The table's `None` slot `_N[targetval][attr][None]`: incremented once
per training example per input attribute, so it equals the number of
examples with that target value (for any input attribute). -/
def NBNtot (d : DataSet V) (t : Option V) : Nat :=
  if t ∈ d.values.getD d.target [] then
    d.examples.countP (fun e => decide (getA e d.target = t))
  else 0

/-- The learner's smoothed estimate `P(targetval, attr, attrval)`:
`(N(targetval, attr, attrval) + 1.0) / (N(targetval, attr, None) +
len(dataset.values[attr]))`. -/
def NBP (d : DataSet V) (t : Option V) (a : Nat) (v : Option V) : ℚ :=
  ((NBN d t a v : ℚ) + 1) / ((NBNtot d t : ℚ) + ((d.values.getD a []).length : ℚ))

/-- Modelled from the spec: the missing utils helper `argmax seq fn` —
the first element of `seq` attaining the maximal `fn` score (a later
element replaces the current best only on a strictly greater score). -/
def argmaxQ {α : Type} (seq : List α) (fn : α → ℚ) : Option α :=
  seq.foldl (fun acc x =>
    match acc with
    | none => some x
    | some b => if fn x > fn b then some x else acc) none

/-- Embedding of `NaiveBayesLearner(dataset)`'s `predict`: among `values[target]`,
the target value maximizing the product over the input attributes of the
smoothed estimates at the example's attribute values. -/
def NBpredict (d : DataSet V) (e : List (Option V)) : Option (Option V) :=
  argmaxQ (d.values.getD d.target [])
    (fun t => (d.inputs.map (fun a => NBP d t a (getA e a))).prod)

/-- The concrete Naive Bayes scenario: one input attribute with two
values, 10 rows — 7 with value A and target "yes", 3 with value B and
target "no". -/
def dC5 : DataSet String :=
  { examples :=
      [[some "A", some "yes"], [some "A", some "yes"], [some "A", some "yes"],
       [some "A", some "yes"], [some "A", some "yes"], [some "A", some "yes"],
       [some "A", some "yes"],
       [some "B", some "no"], [some "B", some "no"], [some "B", some "no"]],
    attrs := [0, 1], attrnames := ["attr", "cls"], target := 1, inputs := [0],
    values := [[some "A", some "B"], [some "yes", some "no"]] }

/-- Modelled from the spec: the 12 rows of the classic Restaurant waiting
dataset (Fig. 18.3), whose `restaurant.csv` data file is not part of the
source tree.  Column order follows the source's attrnames: Alternate Bar
Fri/Sat Hungry Patrons Price Raining Reservation Type WaitEstimate
Wait. -/
def restaurantExamples : List (List (Option String)) :=
  [[some "Yes", some "No", some "No", some "Yes", some "Some", some "$$$",
    some "No", some "Yes", some "French", some "0-10", some "Yes"],
   [some "Yes", some "No", some "No", some "Yes", some "Full", some "$",
    some "No", some "No", some "Thai", some "30-60", some "No"],
   [some "No", some "Yes", some "No", some "No", some "Some", some "$",
    some "No", some "No", some "Burger", some "0-10", some "Yes"],
   [some "Yes", some "No", some "Yes", some "Yes", some "Full", some "$",
    some "Yes", some "No", some "Thai", some "10-30", some "Yes"],
   [some "Yes", some "No", some "Yes", some "No", some "Full", some "$$$",
    some "No", some "Yes", some "French", some ">60", some "No"],
   [some "No", some "Yes", some "No", some "Yes", some "Some", some "$$",
    some "Yes", some "Yes", some "Italian", some "0-10", some "Yes"],
   [some "No", some "Yes", some "No", some "No", some "None", some "$",
    some "Yes", some "No", some "Burger", some "0-10", some "No"],
   [some "No", some "No", some "No", some "Yes", some "Some", some "$$",
    some "Yes", some "Yes", some "Thai", some "0-10", some "Yes"],
   [some "No", some "Yes", some "Yes", some "No", some "Full", some "$",
    some "Yes", some "No", some "Burger", some ">60", some "No"],
   [some "Yes", some "Yes", some "Yes", some "Yes", some "Full", some "$$$",
    some "No", some "Yes", some "Italian", some "10-30", some "No"],
   [some "No", some "No", some "No", some "No", some "None", some "$",
    some "No", some "No", some "Thai", some "0-10", some "No"],
   [some "Yes", some "Yes", some "Yes", some "Yes", some "Full", some "$",
    some "No", some "No", some "Burger", some "30-60", some "Yes"]]

/-- The Restaurant `DataSet`: target `Wait` (index 10), inputs the other
ten attributes, `values` computed from the examples as `setproblem`
does. -/
def restaurant : DataSet String :=
  { examples := restaurantExamples,
    attrs := List.range 11,
    attrnames := ["Alternate", "Bar", "Fri/Sat", "Hungry", "Patrons", "Price",
                  "Raining", "Reservation", "Type", "WaitEstimate", "Wait"],
    target := 10,
    inputs := (List.range 11).filter (fun a => decide (a ≠ 10)),
    values := computeValues restaurantExamples 11 }

/-- A learner whose predictor always answers `None` (used for concrete
instances of the evaluation-harness theorems). -/
def constNone (_d : DataSet V) (_e : List (Option V)) : Option V := none

/-- Modelled from the spec: the missing utils helper `log2`, the base-2
logarithm. -/
noncomputable def log2 (x : ℝ) : ℝ := Real.logb 2 x

/-- Embedding of `information_content(values)`: bits of the distribution — drop the
zero counts, normalize by the sum when it is not already `1.0`, and
return `sum(-v * log2 v)`. -/
noncomputable def information_content (counts : List Nat) : ℝ :=
  let vs0 : List ℝ := (removeall 0 counts).map (fun v : ℕ => (v : ℝ))
  let s : ℝ := vs0.sum
  let vs : List ℝ := if s = 1 then vs0 else vs0.map (fun v => v / s)
  (vs.map (fun v => - v * log2 v)).sum

/-- The tree learner's nested `I(examples)`: information content of the
target-value counts over `values[target]`. -/
noncomputable def infoI (d : DataSet V) (examples : List (List (Option V))) : ℝ :=
  information_content
    ((d.values.getD d.target []).map (fun v => countV d.target v examples))

/-- The learner's `split_by attr examples`: one `(val, subset)` pair per
value of `values[attr]`. -/
def split_by (d : DataSet V) (attr : Nat) (examples : List (List (Option V))) :
    List (Option V × List (List (Option V))) :=
  (d.values.getD attr []).map
    (fun v => (v, examples.filter (fun e => decide (getA e attr = v))))

/-- Embedding of `information_gain(attr, examples)`: `I(examples)` minus the remainder
`Σ (len(examples_i) / N) * I(examples_i)` over the split by `attr`. -/
noncomputable def information_gain (d : DataSet V) (attr : Nat)
    (examples : List (List (Option V))) : ℝ :=
  infoI d examples -
    ((split_by d attr examples).map
      (fun p => ((p.2.length : ℝ) / (examples.length : ℝ)) * infoI d p.2)).sum

/-! ### Theorems -/

theorem sanitizeAux_length (inputs : List Nat) (i : Nat) (l : List (Option V)) :
    (sanitizeAux inputs i l).length = l.length := by
  induction l generalizing i with
  | nil => rfl
  | cons x xs ih => simp [sanitizeAux, ih]

theorem sanitizeAux_idem (inputs : List Nat) (i : Nat) (l : List (Option V)) :
    sanitizeAux inputs i (sanitizeAux inputs i l) = sanitizeAux inputs i l := by
  induction l generalizing i with
  | nil => rfl
  | cons x xs ih =>
    by_cases h : i ∈ inputs <;> simp [sanitizeAux, h, ih]

theorem sanitizeAux_getD (inputs : List Nat) (i j : Nat) (l : List (Option V))
    (h : j < l.length) :
    (sanitizeAux inputs i l).getD j none =
      if (i + j) ∈ inputs then l.getD j none else none := by
  induction l generalizing i j with
  | nil => simp at h
  | cons x xs ih =>
    cases j with
    | zero => simp [sanitizeAux]
    | succ j' =>
      have hj : j' < xs.length := by simpa using h
      have ih' := ih (i + 1) j' hj
      have harith : i + 1 + j' = i + (j' + 1) := by omega
      simp only [sanitizeAux, List.getD_cons_succ]
      rw [ih', harith]

theorem computeValues_getD (examples : List (List (Option V))) (w a : Nat)
    (ha : a < w) :
    (computeValues examples w).getD a [] =
      uniqueVals (examples.map (fun e => getA e a)) := by
  unfold computeValues
  rw [List.getD_eq_getElem?_getD, List.getElem?_map, List.getElem?_range ha]
  rfl

/-- Claim C8: `sanitize` is idempotent, length-preserving, and replaces
exactly the non-input positions by the `None` sentinel while keeping
every input position's original value.  (The Python function builds a
fresh list, so the argument row is never mutated; in this pure embedding
that is inherent.) -/
theorem sanitize_spec (d : DataSet V) (e : List (Option V)) :
    d.sanitize (d.sanitize e) = d.sanitize e ∧
    (d.sanitize e).length = e.length ∧
    (∀ i, i < e.length →
      (d.sanitize e).getD i none = if i ∈ d.inputs then e.getD i none else none) := by
  refine ⟨sanitizeAux_idem _ _ _, sanitizeAux_length _ _ _, ?_⟩
  intro i hi
  simpa using sanitizeAux_getD d.inputs 0 i e hi

theorem sanitize_spec_witness :
    dW8.sanitize (dW8.sanitize [some 4, some 5, some 6]) =
        dW8.sanitize [some 4, some 5, some 6] ∧
    (dW8.sanitize [some 4, some 5, some 6]).length =
        ([some 4, some 5, some 6] : List (Option Nat)).length ∧
    (∀ i, i < ([some 4, some 5, some 6] : List (Option Nat)).length →
      (dW8.sanitize [some 4, some 5, some 6]).getD i none =
        if i ∈ dW8.inputs then ([some 4, some 5, some 6] : List (Option Nat)).getD i none
        else none) :=
  sanitize_spec dW8 [some 4, some 5, some 6]

/-- Claim C6: with `values` populated, `add_example` raises `ValueError`
iff the row has, at some attribute in `attrs`, a value outside that
attribute's value set; on an error the dataset (hence its example list)
is unchanged, the error names an offending attribute and its value, and
on success the row is appended. -/
theorem add_example_spec (d : DataSet V) (e : List (Option V))
    (hv : d.values ≠ []) :
    ((∃ a ∈ d.attrs, getA e a ∉ d.values.getD a []) ↔
       ∃ err, (d.add_example e).1 = .error err) ∧
    (∀ err, (d.add_example e).1 = .error err →
       (d.add_example e).2 = d ∧
       ∃ a ∈ d.attrs, getA e a ∉ d.values.getD a [] ∧
         err = (getA e a, getS d.attrnames a)) ∧
    ((d.add_example e).1 = .ok () →
       (d.add_example e).2.examples = d.examples ++ [e]) := by
  unfold DataSet.add_example DataSet.check_example
  rw [if_neg hv]
  cases hfind : d.attrs.find? (fun a => ! decide (getA e a ∈ d.values.getD a [])) with
  | none =>
    have hall := List.find?_eq_none.mp hfind
    refine ⟨⟨?_, ?_⟩, ?_, ?_⟩
    · rintro ⟨a, ha, hbad⟩
      have := hall a ha
      simp at this
      rw [List.getD_eq_getElem?_getD] at hbad
      exact absurd this hbad
    · rintro ⟨err, herr⟩
      simp at herr
    · intro err herr
      simp at herr
    · intro _
      simp
  | some a =>
    have hbadB := List.find?_some hfind
    have hmem := List.mem_of_find?_eq_some hfind
    have hbad : getA e a ∉ d.values.getD a [] := by
      simpa using hbadB
    refine ⟨⟨?_, ?_⟩, ?_, ?_⟩
    · intro _
      exact ⟨(getA e a, getS d.attrnames a), rfl⟩
    · intro _
      exact ⟨a, hmem, hbad⟩
    · intro err herr
      refine ⟨rfl, a, hmem, hbad, ?_⟩
      simpa using herr.symm
    · intro hok
      simp at hok

theorem add_example_spec_witness :
    dW6.values ≠ [] ∧
    (((∃ a ∈ dW6.attrs, getA [some 5, some 1] a ∉ dW6.values.getD a []) ↔
        ∃ err, (dW6.add_example [some 5, some 1]).1 = .error err) ∧
     (∀ err, (dW6.add_example [some 5, some 1]).1 = .error err →
        (dW6.add_example [some 5, some 1]).2 = dW6 ∧
        ∃ a ∈ dW6.attrs, getA [some 5, some 1] a ∉ dW6.values.getD a [] ∧
          err = (getA [some 5, some 1] a, getS dW6.attrnames a)) ∧
     ((dW6.add_example [some 5, some 1]).1 = .ok () →
        (dW6.add_example [some 5, some 1]).2.examples =
          dW6.examples ++ [[some 5, some 1]])) :=
  ⟨by decide, add_example_spec dW6 [some 5, some 1] (by decide)⟩

/-- Claim C9: for a dataset whose `values` were computed from its own
examples (and whose `attrs` are the row indices, as `setproblem`
derives them), `check_example` succeeds on every one of those examples. -/
theorem check_example_roundtrip (d : DataSet V) (w : Nat)
    (hattrs : d.attrs = List.range w)
    (hvals : d.values = computeValues d.examples w)
    (hlen : ∀ e ∈ d.examples, e.length = w) :
    ∀ e ∈ d.examples, d.check_example e = .ok () := by
  intro e he
  unfold DataSet.check_example
  by_cases hv : d.values = []
  · rw [if_pos hv]
  · rw [if_neg hv]
    have hnone : d.attrs.find?
        (fun a => ! decide (getA e a ∈ d.values.getD a [])) = none := by
      refine List.find?_eq_none.mpr ?_
      intro a ha
      have haw : a < w := by
        rw [hattrs] at ha
        exact List.mem_range.mp ha
      have : getA e a ∈ d.values.getD a [] := by
        rw [hvals, computeValues_getD d.examples w a haw]
        exact List.mem_dedup.mpr (List.mem_map.mpr ⟨e, he, rfl⟩)
      rw [List.getD_eq_getElem?_getD] at this
      simp [this]
    rw [hnone]

theorem check_example_roundtrip_witness :
    dW9.check_example [some 1, some 2] = .ok () :=
  check_example_roundtrip dW9 2 (by decide) rfl (by decide)
    [some 1, some 2] (by decide)

/-- Claim C7: `train_and_test` hands back the dataset with its example
list exactly as it was before the call (the `finally` restoration), for
every learner and index range. -/
theorem train_and_test_restores
    (learner : DataSet V → List (Option V) → Option (Option V))
    (d : DataSet V) (start stop : Nat) :
    (train_and_test learner d start stop).2.examples = d.examples ∧
    (train_and_test learner d start stop).2 = d :=
  ⟨rfl, rfl⟩

/-- Claim C10: `test` called with an empty example list returns `0.0`
(and in particular does not fail): the division by the number of
examples is guarded by the explicit empty check. -/
theorem test_empty_returns_zero
    (predict : List (Option V) → Option (Option V)) (d : DataSet V) :
    test predict d [] = some 0 := rfl

theorem le_listMaxN (l : List Nat) (x : Nat) (h : x ∈ l) : x ≤ listMaxN l := by
  induction l with
  | nil => simp at h
  | cons y ys ih =>
    rcases List.mem_cons.mp h with rfl | hmem
    · exact Nat.le_max_left _ _
    · exact Nat.le_trans (ih hmem) (Nat.le_max_right _ _)

theorem listMaxN_attained (l : List Nat) (h : l ≠ []) : listMaxN l ∈ l := by
  induction l with
  | nil => exact absurd rfl h
  | cons y ys ih =>
    cases ys with
    | nil => simp [listMaxN]
    | cons z zs =>
      have hm := ih (by simp)
      rcases Nat.le_total y (listMaxN (z :: zs)) with hle | hle
      · have : listMaxN (y :: z :: zs) = listMaxN (z :: zs) := by
          simpa [listMaxN] using Nat.max_eq_right hle
        rw [this]
        exact List.mem_cons_of_mem _ hm
      · have : listMaxN (y :: z :: zs) = y := by
          simpa [listMaxN] using Nat.max_eq_left hle
        rw [this]
        exact List.mem_cons_self _ _

theorem argmax_random_tie_some [DecidableEq α] (pick : List α → Option α)
    (seq : List α) (fn : α → Nat)
    (hne : seq ≠ [])
    (hpick : ∀ l : List α, l ≠ [] → ∃ x, pick l = some x ∧ x ∈ l) :
    ∃ x, argmax_random_tie pick seq fn = some x ∧ x ∈ seq := by
  match seq with
  | [] => exact absurd rfl hne
  | y :: ys =>
    have hmax : listMaxN ((y :: ys).map fn) ∈ (y :: ys).map fn :=
      listMaxN_attained _ (by simp)
    rcases List.mem_map.mp hmax with ⟨x0, hx0, hfx0⟩
    have hfil : (y :: ys).filter (fun x => fn x = listMaxN ((y :: ys).map fn)) ≠ [] := by
      intro hnil
      have : x0 ∈ (y :: ys).filter (fun x => fn x = listMaxN ((y :: ys).map fn)) :=
        List.mem_filter.mpr ⟨hx0, by simpa using hfx0⟩
      rw [hnil] at this
      simp at this
    rcases hpick _ hfil with ⟨x, hx, hxmem⟩
    exact ⟨x, hx, (List.mem_filter.mp hxmem).1⟩

theorem pickHead_spec (l : List α) (h : l ≠ []) :
    ∃ x, pickHead l = some x ∧ x ∈ l := by
  cases l with
  | nil => exact absurd rfl h
  | cons y ys => exact ⟨y, rfl, List.mem_cons_self _ _⟩

theorem chooseHead_spec (attrs : List Nat) (exs : List (List (Option V)))
    (h : attrs ≠ []) :
    ∃ a, chooseHead (V := V) attrs exs = some a ∧ a ∈ attrs := by
  cases attrs with
  | nil => exact absurd rfl h
  | cons y ys => exact ⟨y, rfl, List.mem_cons_self _ _⟩

theorem mapM_pairs {α β : Type} (g : α → Option β) (l : List α) (ys : List (α × β))
    (h : l.mapM (fun v => (g v).map (fun t => (v, t))) = some ys) :
    ys.map Prod.fst = l ∧ ∀ p ∈ ys, g p.1 = some p.2 := by
  induction l generalizing ys with
  | nil =>
    simp only [List.mapM_nil, pure, Option.some.injEq] at h
    subst h
    simp
  | cons x xs ih =>
    rw [List.mapM_cons] at h
    cases hgx : g x with
    | none => rw [hgx] at h; simp at h
    | some t =>
      rw [hgx] at h
      cases hrec : xs.mapM (fun v => (g v).map (fun t => (v, t))) with
      | none => rw [hrec] at h; simp at h
      | some ys' =>
        rw [hrec] at h
        simp only [Option.map_some', Option.bind_some, Option.bind_eq_bind,
          Option.some_bind, pure, Option.some.injEq] at h
        obtain ⟨h1, h2⟩ := ih ys' hrec
        subst h
        refine ⟨by simp [h1], ?_⟩
        intro p hp
        rcases List.mem_cons.mp hp with rfl | hmem
        · exact hgx
        · exact h2 p hmem

theorem mapM_pairs_total {α β : Type} (g : α → Option β) (l : List α)
    (h : ∀ v ∈ l, ∃ t, g v = some t) :
    ∃ ys, l.mapM (fun v => (g v).map (fun t => (v, t))) = some ys := by
  induction l with
  | nil => exact ⟨[], rfl⟩
  | cons x xs ih =>
    rcases h x (List.mem_cons_self _ _) with ⟨t, ht⟩
    rcases ih (fun v hv => h v (List.mem_cons_of_mem _ hv)) with ⟨ys', hys'⟩
    refine ⟨(x, t) :: ys', ?_⟩
    rw [List.mapM_cons, ht, hys']
    rfl

/-- Claim C2 (amended): in the recursive fork step, for the chosen split
attribute `A` the constructed Fork has exactly one branch per value in
`values[A]` — the attribute's full legal value set, in order, including
values that do not occur among the current examples — and each branch is
the recursive call on the subset of current examples where `A` equals
that value, with `A` removed from the remaining attributes and the
current examples passed as the new `parent_examples`. -/
theorem fork_branches_spec (pick : List (Option V) → Option (Option V))
    (choose : List Nat → List (List (Option V)) → Option Nat) (d : DataSet V)
    (fuel : Nat) (e0 : List (Option V)) (rest : List (List (Option V)))
    (attrs parent : List _) (A : Nat) (t : DTree V)
    (hnotsame : ¬ ((e0 :: rest).all
        (fun e => decide (getA e d.target = getA e0 d.target)) = true))
    (hchoose : choose attrs (e0 :: rest) = some A)
    (hA : A ∈ attrs)
    (hres : decision_tree_learning pick choose d (fuel + 1)
        (e0 :: rest) attrs parent = some t) :
    ∃ bs, t = DTree.fork A (getS d.attrnames A) bs ∧
      bs.map Prod.fst = d.values.getD A [] ∧
      ∀ p ∈ bs,
        decision_tree_learning pick choose d fuel
            ((e0 :: rest).filter (fun e => decide (getA e A = p.1)))
            (removeall A attrs) (e0 :: rest) = some p.2 := by
  have hlen : ¬ attrs.length = 0 := by
    intro h0
    rw [List.length_eq_zero.mp h0] at hA
    simp at hA
  rw [decision_tree_learning, if_neg hnotsame, if_neg hlen, hchoose] at hres
  simp only [if_pos hA] at hres
  cases hmapM : (d.values.getD A []).mapM (fun v =>
      (decision_tree_learning pick choose d fuel
          ((e0 :: rest).filter (fun e => decide (getA e A = v)))
          (removeall A attrs) (e0 :: rest)).map (fun t => (v, t))) with
  | none =>
    rw [hmapM] at hres
    simp at hres
  | some bs =>
    rw [hmapM] at hres
    simp only [Option.map_some', Option.some.injEq] at hres
    obtain ⟨h1, h2⟩ := mapM_pairs _ _ _ hmapM
    exact ⟨bs, hres.symm, h1, h2⟩

/-- The learned tree's root fork carries a branch for every value in
`values[0]`, including `some 2` which occurs in no current example —
refuting "exactly one branch per value of A that occurs among the
current examples". -/
theorem fork_branches_counterexample :
    (DecisionTreeLearner pickHead chooseHead dC2).map branchKeys =
        some [some 0, some 1, some 2] ∧
    dC2.examples.countP (fun e => decide (getA e 0 = some 2)) = 0 ∧
    dC2.examples.length = 2 :=
  ⟨rfl, rfl, rfl⟩

theorem removeall_length_lt [DecidableEq α] (l : List α) (x : α) (h : x ∈ l) :
    (removeall x l).length < l.length := by
  induction l with
  | nil => simp at h
  | cons y ys ih =>
    by_cases hyx : y = x
    · have hle : (removeall x ys).length ≤ ys.length := by
        simpa [removeall] using List.length_filter_le _ ys
      have hcons : removeall x (y :: ys) = removeall x ys := by
        simp [removeall, List.filter_cons, hyx]
      rw [hcons]
      simpa using Nat.lt_succ_of_le hle
    · have hmem : x ∈ ys := by
        rcases List.mem_cons.mp h with h1 | h1
        · exact absurd h1.symm hyx
        · exact h1
      have hcons : removeall x (y :: ys) = y :: removeall x ys := by
        simp [removeall, List.filter_cons, hyx]
      rw [hcons]
      simpa using Nat.succ_lt_succ (ih hmem)

theorem removeall_subset [DecidableEq α] {l : List α} {x a : α}
    (h : a ∈ removeall x l) : a ∈ l :=
  List.mem_of_mem_filter h

theorem mem_removeall [DecidableEq α] {l : List α} {x a : α}
    (ha : a ∈ l) (hne : a ≠ x) : a ∈ removeall x l :=
  List.mem_filter.mpr ⟨ha, by simpa using hne⟩

theorem getA_sanitize (d : DataSet V) (e : List (Option V)) (a : Nat) :
    getA (d.sanitize e) a = if a ∈ d.inputs then getA e a else none := by
  by_cases h : a < e.length
  · simpa [getA, DataSet.sanitize] using sanitizeAux_getD d.inputs 0 a e h
  · have h1 : e.length ≤ a := Nat.le_of_not_lt h
    have h2 : (d.sanitize e).length ≤ a := by
      rw [DataSet.sanitize, sanitizeAux_length]
      exact h1
    rw [getA, getA, List.getD_eq_getElem?_getD, List.getD_eq_getElem?_getD,
      List.getElem?_eq_none h1, List.getElem?_eq_none h2]
    simp

theorem predictB_map (g : Option V → Option (DTree V))
    (bs : List (Option V × DTree V)) (key : Option V) (e : List (Option V))
    (t : DTree V)
    (hg : ∀ p ∈ bs, g p.1 = some p.2)
    (hk : key ∈ bs.map Prod.fst)
    (hgk : g key = some t) :
    predictB key bs e = t.predictT e := by
  induction bs with
  | nil => simp at hk
  | cons p ps ih =>
    by_cases hpk : p.1 = key
    · have hp : g p.1 = some p.2 := hg p (List.mem_cons_self _ _)
      rw [hpk, hgk] at hp
      injection hp with hp2
      rw [predictB, if_pos hpk, hp2]
    · have hk' : key ∈ ps.map Prod.fst := by
        rcases List.mem_map.mp hk with ⟨q, hq, hq1⟩
        rcases List.mem_cons.mp hq with rfl | hqs
        · exact absurd hq1 hpk
        · exact List.mem_map.mpr ⟨q, hqs, hq1⟩
      rw [predictB, if_neg hpk]
      exact ih (fun q hq => hg q (List.mem_cons_of_mem _ hq)) hk'

theorem zip_self_map {α β : Type} (l : List α) (g : α → β) :
    l.zip (l.map g) = l.map (fun x => (x, g x)) := by
  induction l with
  | nil => rfl
  | cons x xs ih => simp [ih]

theorem mapM_eq_map {α β : Type} (f : α → Option β) (g : α → β) (l : List α)
    (h : ∀ x ∈ l, f x = some (g x)) : l.mapM f = some (l.map g) := by
  induction l with
  | nil => rfl
  | cons x xs ih =>
    rw [List.mapM_cons, h x (List.mem_cons_self _ _),
      ih (fun y hy => h y (List.mem_cons_of_mem _ hy))]
    rfl

/-- Totality and training-set correctness of the induction, by induction
on the fuel (which strictly dominates `attrs.length` at every call):
under the dataset invariants and a consistent example set, the recursion
returns a tree that classifies every current example correctly on its
sanitized row. -/
theorem dtl_total_correct (pick : List (Option V) → Option (Option V))
    (choose : List Nat → List (List (Option V)) → Option Nat) (d : DataSet V)
    (Hpick : ∀ l : List (Option V), l ≠ [] → ∃ x, pick l = some x ∧ x ∈ l)
    (Hchoose : ∀ (attrs : List Nat) (exs : List (List (Option V))),
        attrs ≠ [] → ∃ a, choose attrs exs = some a ∧ a ∈ attrs)
    (HvalsT : d.values.getD d.target [] ≠ []) :
    ∀ (fuel : Nat) (attrs : List Nat) (examples parent : List (List (Option V))),
      attrs.length < fuel →
      (∀ a ∈ attrs, a ∈ d.inputs) →
      (examples = [] → parent ≠ []) →
      (∀ e ∈ examples, ∀ a ∈ attrs, getA e a ∈ d.values.getD a []) →
      (∀ e1 ∈ examples, ∀ e2 ∈ examples,
        (∀ a ∈ attrs, getA e1 a = getA e2 a) →
          getA e1 d.target = getA e2 d.target) →
      ∃ t, decision_tree_learning pick choose d fuel examples attrs parent = some t ∧
        ∀ e ∈ examples, t.predictT (d.sanitize e) = some (getA e d.target) := by
  intro fuel
  induction fuel with
  | zero =>
    intro attrs examples parent hf
    omega
  | succ fuel ih =>
    intro attrs examples parent hf hsub hpar hcov hcons
    cases examples with
    | nil =>
      rcases argmax_random_tie_some pick (d.values.getD d.target [])
          (fun v => countV d.target v parent) HvalsT Hpick with ⟨x, hx, _⟩
      refine ⟨DTree.leaf x, ?_, by simp⟩
      rw [decision_tree_learning, plurality_value, hx]
      rfl
    | cons e0 rest =>
      by_cases hsame :
          ((e0 :: rest).all (fun e => decide (getA e d.target = getA e0 d.target)) = true)
      · refine ⟨DTree.leaf (getA e0 d.target), ?_, ?_⟩
        · rw [decision_tree_learning, if_pos hsame]
        · intro e he
          have h1 := List.all_eq_true.mp hsame e he
          simp only [decide_eq_true_eq] at h1
          simp [DTree.predictT, h1]
      · have hattrs_ne : attrs ≠ [] := by
          intro h0
          apply hsame
          refine List.all_eq_true.mpr ?_
          intro e he
          simp only [decide_eq_true_eq]
          exact hcons e he e0 (List.mem_cons_self _ _)
            (fun a ha => by rw [h0] at ha; simp at ha)
        rcases Hchoose attrs (e0 :: rest) hattrs_ne with ⟨A, hch, hAmem⟩
        have hlen0 : ¬ attrs.length = 0 := by
          intro h0
          rw [List.length_eq_zero.mp h0] at hAmem
          simp at hAmem
        have hrecall : ∀ v ∈ d.values.getD A [], ∃ tv,
            decision_tree_learning pick choose d fuel
              ((e0 :: rest).filter (fun e => decide (getA e A = v)))
              (removeall A attrs) (e0 :: rest) = some tv ∧
            ∀ e ∈ (e0 :: rest).filter (fun e => decide (getA e A = v)),
              tv.predictT (d.sanitize e) = some (getA e d.target) := by
          intro v _
          apply ih (removeall A attrs)
          · have := removeall_length_lt attrs A hAmem
            omega
          · intro a ha
            exact hsub a (removeall_subset ha)
          · intro _
            simp
          · intro e he a ha
            exact hcov e (List.mem_of_mem_filter he) a (removeall_subset ha)
          · intro e1 he1 e2 he2 hagree
            apply hcons e1 (List.mem_of_mem_filter he1) e2 (List.mem_of_mem_filter he2)
            intro a ha
            by_cases haA : a = A
            · subst haA
              have h1 := (List.mem_filter.mp he1).2
              have h2 := (List.mem_filter.mp he2).2
              simp only [decide_eq_true_eq] at h1 h2
              rw [h1, h2]
            · exact hagree a (mem_removeall ha haA)
        have hex : ∀ v ∈ d.values.getD A [], ∃ tv,
            decision_tree_learning pick choose d fuel
              ((e0 :: rest).filter (fun e => decide (getA e A = v)))
              (removeall A attrs) (e0 :: rest) = some tv :=
          fun v hv => ⟨(hrecall v hv).choose, (hrecall v hv).choose_spec.1⟩
        rcases mapM_pairs_total
            (fun v => decision_tree_learning pick choose d fuel
              ((e0 :: rest).filter (fun e => decide (getA e A = v)))
              (removeall A attrs) (e0 :: rest))
            (d.values.getD A []) hex with ⟨bs, hbs⟩
        obtain ⟨hkeys, hgs⟩ := mapM_pairs _ _ _ hbs
        refine ⟨DTree.fork A (getS d.attrnames A) bs, ?_, ?_⟩
        · rw [decision_tree_learning, if_neg hsame, if_neg hlen0, hch]
          simp only [if_pos hAmem]
          rw [hbs]
          rfl
        · intro e he
          have hvA : getA e A ∈ d.values.getD A [] := hcov e he A hAmem
          have hsan : getA (d.sanitize e) A = getA e A := by
            rw [getA_sanitize, if_pos (hsub A hAmem)]
          obtain ⟨tv, htv, hPtv⟩ := hrecall (getA e A) hvA
          have hstep : DTree.predictT (DTree.fork A (getS d.attrnames A) bs)
              (d.sanitize e) = predictB (getA (d.sanitize e) A) bs (d.sanitize e) := by
            simp [DTree.predictT]
          rw [hstep, hsan]
          rw [predictB_map
              (fun v => decision_tree_learning pick choose d fuel
                ((e0 :: rest).filter (fun e => decide (getA e A = v)))
                (removeall A attrs) (e0 :: rest))
              bs (getA e A) (d.sanitize e) tv hgs (by rw [hkeys]; exact hvA) htv]
          apply hPtv
          exact List.mem_filter.mpr ⟨he, by simp⟩

/-- Claim C1 (amended): for every nonempty dataset whose rows take their
values inside the per-attribute value sets and in which no two examples
agree on every input attribute while differing on the target, the
learner succeeds and the returned tree predicts every training example
(sanitized before prediction) correctly: `test` over the dataset's own
examples is 1.0.  Quantified over every behaviour of the random
tie-breaks (`pick`) and of the attribute selector (`choose`, covering
every tie-break outcome of the information-gain argmax). -/
theorem decision_tree_training_accuracy
    (pick : List (Option V) → Option (Option V))
    (choose : List Nat → List (List (Option V)) → Option Nat) (d : DataSet V)
    (Hpick : ∀ l : List (Option V), l ≠ [] → ∃ x, pick l = some x ∧ x ∈ l)
    (Hchoose : ∀ (attrs : List Nat) (exs : List (List (Option V))),
        attrs ≠ [] → ∃ a, choose attrs exs = some a ∧ a ∈ attrs)
    (hne : d.examples ≠ [])
    (hcovT : ∀ e ∈ d.examples, getA e d.target ∈ d.values.getD d.target [])
    (hcovI : ∀ e ∈ d.examples, ∀ a ∈ d.inputs, getA e a ∈ d.values.getD a [])
    (hconsist : ∀ e1 ∈ d.examples, ∀ e2 ∈ d.examples,
        (∀ a ∈ d.inputs, getA e1 a = getA e2 a) →
          getA e1 d.target = getA e2 d.target) :
    ∃ t, DecisionTreeLearner pick choose d = some t ∧
      test t.predictT d d.examples = some 1 := by
  have HvalsT : d.values.getD d.target [] ≠ [] := by
    cases hex : d.examples with
    | nil => exact absurd hex hne
    | cons e0 rest =>
      intro h0
      have := hcovT e0 (by rw [hex]; exact List.mem_cons_self _ _)
      rw [h0] at this
      simp at this
  obtain ⟨t, ht, hP⟩ := dtl_total_correct pick choose d Hpick Hchoose HvalsT
      (d.inputs.length + 1) d.inputs d.examples []
      (by omega) (fun a ha => ha) (fun h => absurd h hne) hcovI hconsist
  refine ⟨t, ht, ?_⟩
  have hlen : ¬ d.examples.length = 0 := by
    simpa [List.length_eq_zero] using hne
  rw [test, if_neg hlen,
    mapM_eq_map (fun e => t.predictT (d.sanitize e))
      (fun e => getA e d.target) d.examples hP]
  simp only [Option.map_some', Option.some.injEq]
  rw [zip_self_map d.examples (fun e => getA e d.target), List.countP_map]
  have hcount : d.examples.countP
      ((fun p => decide (p.2 = getA p.1 d.target)) ∘ (fun e => (e, getA e d.target))) =
      d.examples.length := by
    apply List.countP_eq_length.mpr
    intro e _
    simp
  rw [hcount]
  rw [div_self]
  exact Nat.cast_ne_zero.mpr hlen

/-- Concrete witness data for the amended C1 statement: a consistent
two-example dataset (the same one used for the C2 counterexample). -/
theorem decision_tree_training_accuracy_witness :
    ∃ t, DecisionTreeLearner pickHead chooseHead dC2 = some t ∧
      test t.predictT dC2 dC2.examples = some 1 :=
  decision_tree_training_accuracy pickHead chooseHead dC2
    (fun l h => pickHead_spec l h)
    (fun attrs exs h => chooseHead_spec attrs exs h)
    (by decide) (by decide) (by decide) (by decide)

/-- On the empty dataset the learner returns a tree (the plurality leaf
over the supplied target value set), but `test` over the dataset's own
examples is 0.0, not 1.0 — refuting the claim as stated. -/
theorem training_accuracy_counterexample :
    (∀ e1 ∈ dC1.examples, ∀ e2 ∈ dC1.examples,
        (∀ a ∈ dC1.inputs, getA e1 a = getA e2 a) →
          getA e1 dC1.target = getA e2 dC1.target) ∧
    (DecisionTreeLearner pickHead chooseHead dC1).map
        (fun t => test t.predictT dC1 dC1.examples) = some (some 0) ∧
    some (some (0 : ℚ)) ≠ some (some (1 : ℚ)) :=
  ⟨by decide, rfl, by decide⟩

theorem fork_branches_spec_witness :
    ∃ bs, DTree.fork 0 (getS dC2.attrnames 0) [(some 0, DTree.leaf (some 0)),
          (some 1, DTree.leaf (some 1)), (some 2, DTree.leaf (some 0))] =
        DTree.fork 0 (getS dC2.attrnames 0) bs ∧
      bs.map Prod.fst = dC2.values.getD 0 [] ∧
      ∀ p ∈ bs,
        decision_tree_learning pickHead chooseHead dC2 1
            (dC2.examples.filter (fun e => decide (getA e 0 = p.1)))
            (removeall 0 [0]) dC2.examples = some p.2 :=
  fork_branches_spec pickHead chooseHead dC2 1 [some 0, some 0] [[some 1, some 1]]
    [0] [] 0 _ (by decide) rfl (by decide) rfl

/-- Claim C5: the Naive Bayes conditional estimate for value `v` given
target `t` equals the Laplace-smoothed ratio
`(count(t, attr, v) + 1) / (count(t, attr, any) + |domain(attr)|)`, the
predictor returns the target value maximizing the product of the
per-input-attribute estimates, and on the 7-A-yes / 3-B-no scenario the
predictor answers "yes" for a query with attribute value A. -/
theorem naive_bayes_spec :
    (∀ (d : DataSet V) (t : Option V) (a : Nat) (v : Option V),
        t ∈ d.values.getD d.target [] → v ∈ d.values.getD a [] →
        NBP d t a v =
          ((d.examples.countP
              (fun e => decide (getA e d.target = t ∧ getA e a = v)) : ℚ) + 1) /
          ((d.examples.countP (fun e => decide (getA e d.target = t)) : ℚ) +
            ((d.values.getD a []).length : ℚ))) ∧
    (∀ (d : DataSet V) (e : List (Option V)),
        NBpredict d e =
          argmaxQ (d.values.getD d.target [])
            (fun t => (d.inputs.map (fun a => NBP d t a (getA e a))).prod)) ∧
    NBpredict dC5 [some "A", none] = some (some "yes") := by
  refine ⟨?_, fun d e => rfl, ?_⟩
  · intro d t a v ht hv
    rw [NBP, NBN, NBNtot, if_pos ⟨ht, hv⟩, if_pos ht]
  · have hyes : NBP dC5 (some "yes") 0 (some "A") = 8 / 9 := by
      simp +decide [NBP, NBN, NBNtot, dC5, getA]
      norm_num
    have hno : NBP dC5 (some "no") 0 (some "A") = 1 / 5 := by
      simp +decide [NBP, NBN, NBNtot, dC5, getA]
      norm_num
    have hq : getA [some "A", (none : Option String)] 0 = some "A" := rfl
    rw [NBpredict,
      show dC5.values.getD dC5.target [] = [some "yes", some "no"] from rfl,
      show dC5.inputs = [0] from rfl, argmaxQ, List.foldl_cons, List.foldl_cons,
      List.foldl_nil]
    simp only [List.map_cons, List.map_nil, List.prod_cons, List.prod_nil,
      mul_one, hq, hyes, hno]
    rw [if_neg (by norm_num)]

theorem naive_bayes_spec_witness :
    NBP dC5 (some "yes") 0 (some "A") =
      ((dC5.examples.countP
          (fun e => decide (getA e dC5.target = some "yes" ∧ getA e 0 = some "A")) : ℚ) + 1) /
      ((dC5.examples.countP (fun e => decide (getA e dC5.target = some "yes")) : ℚ) +
        ((dC5.values.getD 0 []).length : ℚ)) :=
  (naive_bayes_spec (V := String)).1 dC5 (some "yes") 0 (some "A")
    (by decide) (by decide)

theorem test_total_bounds (p : List (Option V) → Option V) (d : DataSet V)
    (examples : List (List (Option V))) :
    ∃ q, test (fun e => some (p e)) d examples = some q ∧ 0 ≤ q ∧ q ≤ 1 := by
  by_cases h : examples.length = 0
  · exact ⟨0, by rw [test, if_pos h], le_refl 0, by norm_num⟩
  · have hpos : 0 < (examples.length : ℚ) := by
      exact_mod_cast Nat.pos_of_ne_zero h
    refine ⟨((examples.zip (examples.map (fun e => p (d.sanitize e)))).countP
        (fun pr => decide (pr.2 = getA pr.1 d.target)) : ℚ) / examples.length,
      ?_, ?_, ?_⟩
    · rw [test, if_neg h,
        mapM_eq_map (fun e => some (p (d.sanitize e)))
          (fun e => p (d.sanitize e)) examples (fun e _ => rfl)]
      rfl
    · apply div_nonneg (Nat.cast_nonneg _) (Nat.cast_nonneg _)
    · rw [div_le_one hpos]
      have hle : (examples.zip (examples.map (fun e => p (d.sanitize e)))).countP
          (fun pr => decide (pr.2 = getA pr.1 d.target)) ≤ examples.length := by
        refine le_trans (List.countP_le_length _) ?_
        rw [List.length_zip, List.length_map]
        simp
      exact_mod_cast hle

theorem meanQ_bounds (l : List ℚ) (hne : l ≠ []) (h : ∀ q ∈ l, 0 ≤ q ∧ q ≤ 1) :
    0 ≤ meanQ l ∧ meanQ l ≤ 1 := by
  have hlen : 0 < (l.length : ℚ) := by
    have h0 : l.length ≠ 0 := by simpa [List.length_eq_zero] using hne
    exact_mod_cast Nat.pos_of_ne_zero h0
  have hsum0 : 0 ≤ l.sum := List.sum_nonneg (fun q hq => (h q hq).1)
  have hsum1 : l.sum ≤ (l.length : ℚ) := by
    have := List.sum_le_card_nsmul l 1 (fun q hq => (h q hq).2)
    simpa using this
  constructor
  · exact div_nonneg hsum0 (le_of_lt hlen)
  · rw [meanQ, div_le_one hlen]
    exact hsum1

theorem cv_folds (learner : DataSet V → List (Option V) → Option V)
    (d1 : DataSet V) (n k : Nat) :
    ∀ j : Nat, ∃ qs : List ℚ,
      ((List.range j).foldl
        (fun (acc : Option (List ℚ) × DataSet V) i =>
          let r := train_and_test (fun dd e => some (learner dd e)) acc.2
            (i * (n / k)) ((i + 1) * (n / k))
          ((match acc.1, r.1 with
            | some qs, some q => some (qs ++ [q])
            | _, _ => none), r.2))
        ((some [] : Option (List ℚ)), d1)) = (some qs, d1) ∧
      qs.length = j ∧ ∀ q ∈ qs, 0 ≤ q ∧ q ≤ 1 := by
  intro j
  induction j with
  | zero => exact ⟨[], rfl, rfl, by simp⟩
  | succ j ih =>
    obtain ⟨qs, hfold, hlen, hbounds⟩ := ih
    obtain ⟨q, hq, hq0, hq1⟩ := test_total_bounds (learner
        { d1 with examples := d1.examples.take (j * (n / k)) ++
            d1.examples.drop ((j + 1) * (n / k)) })
        { d1 with examples := d1.examples.take (j * (n / k)) ++
            d1.examples.drop ((j + 1) * (n / k)) }
        ((d1.examples.drop (j * (n / k))).take ((j + 1) * (n / k) - j * (n / k)))
    refine ⟨qs ++ [q], ?_, by simp [hlen], ?_⟩
    · rw [List.range_succ, List.foldl_append, hfold, List.foldl_cons, List.foldl_nil]
      simp only [train_and_test, hq]
    · intro x hx
      rcases List.mem_append.mp hx with hx1 | hx2
      · exact hbounds x hx1
      · rw [List.mem_singleton.mp hx2]
        exact ⟨hq0, hq1⟩

theorem cross_validation_spec
    (shuffle : List (List (Option V)) → List (List (Option V)))
    (learner : DataSet V → List (Option V) → Option V)
    (d : DataSet V) (k : Nat) (hk : k ≠ 0) :
    ∃ q, cross_validation shuffle (fun dd e => some (learner dd e)) d k =
        (some q, { d with examples := shuffle d.examples }) ∧ 0 ≤ q ∧ q ≤ 1 := by
  obtain ⟨qs, hfold, hlen, hbounds⟩ :=
    cv_folds learner { d with examples := shuffle d.examples } d.examples.length k k
  have hqs_ne : qs ≠ [] := by
    intro h0
    rw [h0] at hlen
    exact hk hlen.symm
  obtain ⟨hm0, hm1⟩ := meanQ_bounds qs hqs_ne hbounds
  refine ⟨meanQ qs, ?_, hm0, hm1⟩
  rw [cross_validation]
  rw [hfold]
  rfl

/-- Claim C3 (amended): leave-one-out cross-validation on the Restaurant
dataset — for every learner (with a total predictor) and every
permutation the in-place shuffle may produce — returns a score in the
closed interval [0,1]; afterwards `dataset.examples` holds the shuffled
arrangement, which is a permutation of the original examples (the same
rows as a multiset) but not, in general, the original order. -/
theorem leave1out_restaurant
    (shuffle : List (List (Option String)) → List (List (Option String)))
    (learner : DataSet String → List (Option String) → Option String)
    (hperm : List.Perm (shuffle restaurant.examples) restaurant.examples) :
    (∃ q, (leave1out shuffle (fun dd e => some (learner dd e)) restaurant).1 =
        some q ∧ 0 ≤ q ∧ q ≤ 1) ∧
    List.Perm
      (leave1out shuffle (fun dd e => some (learner dd e)) restaurant).2.examples
      restaurant.examples := by
  obtain ⟨q, heq, h0, h1⟩ := cross_validation_spec shuffle learner restaurant
      restaurant.examples.length (by decide)
  rw [leave1out, heq]
  exact ⟨⟨q, rfl, h0, h1⟩, hperm⟩

theorem leave1out_restaurant_witness :
    (∃ q, (leave1out (fun l => l)
        (fun dd e => some (constNone dd e)) restaurant).1 =
        some q ∧ 0 ≤ q ∧ q ≤ 1) ∧
    List.Perm
      (leave1out (fun l => l)
        (fun dd e => some (constNone dd e)) restaurant).2.examples
      restaurant.examples :=
  leave1out_restaurant (fun l => l) constNone (List.Perm.refl _)

/-- With the shuffle outcome that reverses the examples (a permutation
`random.shuffle` can produce), the dataset's examples after leave-one-out
are the reversed list — not the original order — refuting the
order-restoration part of the claim as stated. -/
theorem leave1out_order_counterexample :
    (leave1out List.reverse (fun dd e => some (constNone dd e))
        restaurant).2.examples = restaurant.examples.reverse ∧
    restaurant.examples.reverse ≠ restaurant.examples := by
  obtain ⟨q, heq, _, _⟩ := cross_validation_spec List.reverse constNone restaurant
      restaurant.examples.length (by decide)
  constructor
  · rw [leave1out, heq]
  · decide

theorem sum_map_div {α : Type} (l : List α) (f : α → ℝ) (c : ℝ) :
    (l.map (fun x => f x / c)).sum = (l.map f).sum / c := by
  induction l with
  | nil => simp
  | cons x xs ih => simp [ih, add_div]

theorem sum_map_removeall_zero (g : Nat → ℝ) (hg : g 0 = 0) (counts : List Nat) :
    ((removeall 0 counts).map g).sum = (counts.map g).sum := by
  induction counts with
  | nil => rfl
  | cons c cs ih =>
    by_cases hc : c = 0
    · subst hc
      have h1 : removeall 0 (0 :: cs) = removeall 0 cs := by
        simp [removeall, List.filter_cons]
      rw [h1, ih]
      simp [hg]
    · have h1 : removeall 0 (c :: cs) = c :: removeall 0 cs := by
        simp [removeall, List.filter_cons, hc]
      rw [h1]
      simp [ih]

theorem removeall_zero_sum (counts : List Nat) :
    (removeall 0 counts).sum = counts.sum := by
  induction counts with
  | nil => rfl
  | cons c cs ih =>
    by_cases hc : c = 0
    · subst hc
      have h1 : removeall 0 (0 :: cs) = removeall 0 cs := by
        simp [removeall, List.filter_cons]
      rw [h1, ih]
      simp
    · have h1 : removeall 0 (c :: cs) = c :: removeall 0 cs := by
        simp [removeall, List.filter_cons, hc]
      rw [h1]
      simp [ih]

theorem mem_le_sum_nat (l : List Nat) (c : Nat) (h : c ∈ l) : c ≤ l.sum := by
  induction l with
  | nil => simp at h
  | cons x xs ih =>
    rcases List.mem_cons.mp h with rfl | hm
    · simp
    · have := ih hm
      simp only [List.sum_cons]
      omega

theorem pos_sum_one (l : List Nat) (hpos : ∀ c ∈ l, c ≠ 0) (hsum : l.sum = 1) :
    l = [1] := by
  cases l with
  | nil => simp at hsum
  | cons c cs =>
    have hc : c ≠ 0 := hpos c (List.mem_cons_self _ _)
    have hsum' : c + cs.sum = 1 := by simpa using hsum
    have hcs : cs.sum = 0 := by omega
    have hc1 : c = 1 := by omega
    subst hc1
    have hnil : cs = [] := by
      cases cs with
      | nil => rfl
      | cons b bs =>
        have hb : b ≠ 0 := hpos b (by simp)
        have hsb : b + bs.sum = 0 := by simpa using hcs
        omega
    rw [hnil]

theorem information_content_eq (counts : List Nat) :
    information_content counts =
      ((counts.map (fun c : ℕ =>
        Real.negMulLog ((c : ℝ) / (counts.sum : ℝ)))).sum) / Real.log 2 := by
  have hs : (((removeall 0 counts).map (fun v : ℕ => (v : ℝ))).sum) = (counts.sum : ℝ) := by
    rw [← removeall_zero_sum counts]
    exact (Nat.cast_list_sum _).symm
  have hpoint : ∀ x : ℝ, - x * log2 x = Real.negMulLog x / Real.log 2 := by
    intro x
    rw [log2, Real.logb, Real.negMulLog]
    ring
  rw [information_content]
  rw [hs]
  by_cases h1 : (counts.sum : ℝ) = 1
  · rw [if_pos h1]
    have hnat : counts.sum = 1 := by exact_mod_cast h1
    have hpos : ∀ c ∈ removeall 0 counts, c ≠ 0 := by
      intro c hc
      have := (List.mem_filter.mp hc).2
      simpa using this
    have hrsum : (removeall 0 counts).sum = 1 := by
      rw [removeall_zero_sum, hnat]
    have hrem : removeall 0 counts = [1] := pos_sum_one _ hpos hrsum
    rw [hrem]
    have hrhs : (counts.map (fun c : ℕ =>
        Real.negMulLog ((c : ℝ) / (counts.sum : ℝ)))).sum = 0 := by
      apply List.sum_eq_zero
      intro x hx
      rcases List.mem_map.mp hx with ⟨c, hc, rfl⟩
      have hle : c ≤ counts.sum := mem_le_sum_nat counts c hc
      rw [hnat] at hle
      rcases Nat.le_one_iff_eq_zero_or_eq_one.mp hle with rfl | rfl
      · simp
      · rw [h1]
        simp
    rw [hrhs]
    simp [log2]
  · rw [if_neg h1]
    rw [List.map_map, List.map_map]
    have hmapeq : ((removeall 0 counts).map
        (((fun v => - v * log2 v) ∘ (fun v => v / (counts.sum : ℝ))) ∘ (fun v : ℕ => (v : ℝ)))) =
        ((removeall 0 counts).map
          (fun c : ℕ => Real.negMulLog ((c : ℝ) / (counts.sum : ℝ)) / Real.log 2)) := by
      apply List.map_congr_left
      intro c _
      simp only [Function.comp]
      rw [hpoint]
    rw [hmapeq, sum_map_div]
    rw [sum_map_removeall_zero
      (fun c : ℕ => Real.negMulLog ((c : ℝ) / (counts.sum : ℝ))) (by simp) counts]

theorem information_content_nonneg (counts : List Nat) :
    0 ≤ information_content counts := by
  rw [information_content_eq]
  apply div_nonneg _ (Real.log_nonneg (by norm_num))
  apply List.sum_nonneg
  intro x hx
  rcases List.mem_map.mp hx with ⟨c, hc, rfl⟩
  apply Real.negMulLog_nonneg
  · apply div_nonneg (Nat.cast_nonneg _) (Nat.cast_nonneg _)
  · by_cases hs : counts.sum = 0
    · rw [hs]
      norm_num
    · rw [div_le_one (by exact_mod_cast Nat.pos_of_ne_zero hs)]
      exact_mod_cast mem_le_sum_nat counts c hc

theorem sum_map_add_nat {α : Type} (l : List α) (f g : α → Nat) :
    (l.map (fun x => f x + g x)).sum = (l.map f).sum + (l.map g).sum := by
  induction l with
  | nil => rfl
  | cons x xs ih =>
    simp only [List.map_cons, List.sum_cons, ih]
    omega

theorem sum_indicator_count {κ : Type} [DecidableEq κ] (keys : List κ) (k0 : κ) :
    (keys.map (fun k => if k0 = k then 1 else 0)).sum = keys.count k0 := by
  induction keys with
  | nil => rfl
  | cons k ks ih =>
    by_cases h : k0 = k
    · subst h
      simp [List.count_cons, ih, Nat.add_comm]
    · simp [List.count_cons, h, ih, Ne.symm h]

theorem sum_countP_key {α κ : Type} [DecidableEq κ] (keys : List κ) (key : α → κ)
    (S : List α) (hnodup : keys.Nodup) (hcov : ∀ x ∈ S, key x ∈ keys) :
    (keys.map (fun k => S.countP (fun x => decide (key x = k)))).sum = S.length := by
  induction S with
  | nil => simp
  | cons x xs ih =>
    have hcx : ∀ y ∈ xs, key y ∈ keys := fun y hy => hcov y (List.mem_cons_of_mem _ hy)
    have hx : key x ∈ keys := hcov x (List.mem_cons_self _ _)
    have hstep : (keys.map (fun k => (x :: xs).countP (fun y => decide (key y = k)))) =
        keys.map (fun k => xs.countP (fun y => decide (key y = k)) +
          if key x = k then 1 else 0) := by
      apply List.map_congr_left
      intro k _
      rw [List.countP_cons]
      by_cases h : key x = k
      · simp [h]
      · simp [h]
    rw [hstep, sum_map_add_nat, ih hcx, sum_indicator_count keys (key x),
      List.count_eq_one_of_mem hnodup hx]
    simp

theorem sum_countV_split (d : DataSet V) (attr : Nat) (t : Option V)
    (examples : List (List (Option V)))
    (hAnodup : (d.values.getD attr []).Nodup)
    (hcovA : ∀ e ∈ examples, getA e attr ∈ d.values.getD attr []) :
    ((d.values.getD attr []).map (fun v =>
      countV d.target t (examples.filter (fun e => decide (getA e attr = v))))).sum =
    countV d.target t examples := by
  have h1 : ∀ v, countV d.target t (examples.filter (fun e => decide (getA e attr = v))) =
      (examples.filter (fun e => decide (getA e d.target = t))).countP
        (fun e => decide (getA e attr = v)) := by
    intro v
    rw [countV, List.countP_filter, List.countP_filter]
    simp [Bool.and_comm]
  rw [List.map_congr_left (fun v _ => h1 v)]
  rw [sum_countP_key (d.values.getD attr []) (fun e => getA e attr)
    (examples.filter (fun e => decide (getA e d.target = t))) hAnodup
    (fun x hx => hcovA x (List.mem_of_mem_filter hx))]
  rw [countV, List.countP_eq_length_filter]

theorem infoI_eq (d : DataSet V) (S : List (List (Option V)))
    (hTnodup : (d.values.getD d.target []).Nodup)
    (hcov : ∀ e ∈ S, getA e d.target ∈ d.values.getD d.target []) :
    infoI d S = (((d.values.getD d.target []).map
        (fun t => Real.negMulLog ((countV d.target t S : ℝ) / (S.length : ℝ)))).sum)
      / Real.log 2 := by
  rw [infoI, information_content_eq]
  have hsum : ((d.values.getD d.target []).map (fun v => countV d.target v S)).sum =
      S.length := by
    simp only [countV]
    exact sum_countP_key _ (fun e => getA e d.target) S hTnodup hcov
  rw [hsum, List.map_map]
  rfl

/-- Jensen's inequality for the entropy summand: a weighted average of
`negMulLog` values is at most `negMulLog` of the weighted average,
summed over the target values. -/
theorem weighted_entropy_le {ι κ : Type} (VF : Finset ι) (TF : Finset κ)
    (w : ι → ℝ) (p : ι → κ → ℝ) (P : κ → ℝ)
    (hw0 : ∀ v ∈ VF, 0 ≤ w v)
    (hw1 : VF.sum w = 1)
    (hp0 : ∀ v ∈ VF, ∀ t ∈ TF, 0 ≤ p v t)
    (hP : ∀ t ∈ TF, VF.sum (fun v => w v * p v t) = P t) :
    VF.sum (fun v => w v * TF.sum (fun t => Real.negMulLog (p v t))) ≤
      TF.sum (fun t => Real.negMulLog (P t)) := by
  calc VF.sum (fun v => w v * TF.sum (fun t => Real.negMulLog (p v t)))
      = VF.sum (fun v => TF.sum (fun t => w v * Real.negMulLog (p v t))) := by
        apply Finset.sum_congr rfl
        intro v _
        rw [Finset.mul_sum]
    _ = TF.sum (fun t => VF.sum (fun v => w v * Real.negMulLog (p v t))) :=
        Finset.sum_comm
    _ ≤ TF.sum (fun t => Real.negMulLog (P t)) := by
        apply Finset.sum_le_sum
        intro t ht
        have hj := Real.concaveOn_negMulLog.le_map_sum
          (fun v hv => hw0 v hv) hw1
          (fun v hv => Set.mem_Ici.mpr (hp0 v hv t ht))
        simp only [smul_eq_mul] at hj
        rw [hP t ht] at hj
        exact hj

/-- Claim C4: for every attribute and every non-empty example set whose
rows take their values inside the (duplicate-free) per-attribute value
sets, the information gain of splitting on the attribute is at least 0
and at most the entropy `I` of the unsplit example set. -/
theorem information_gain_bounds (d : DataSet V) (attr : Nat)
    (examples : List (List (Option V)))
    (hne : examples ≠ [])
    (hTnodup : (d.values.getD d.target []).Nodup)
    (hAnodup : (d.values.getD attr []).Nodup)
    (hcovT : ∀ e ∈ examples, getA e d.target ∈ d.values.getD d.target [])
    (hcovA : ∀ e ∈ examples, getA e attr ∈ d.values.getD attr []) :
    0 ≤ information_gain d attr examples ∧
    information_gain d attr examples ≤ infoI d examples := by
  have hN0 : (examples.length : ℝ) ≠ 0 := by
    have h0 : examples.length ≠ 0 := by simpa [List.length_eq_zero] using hne
    exact_mod_cast h0
  constructor
  · -- the gain is nonnegative: the remainder is at most I(examples)
    rw [information_gain, sub_nonneg]
    have h1 : ((split_by d attr examples).map
        (fun p => ((p.2.length : ℝ) / (examples.length : ℝ)) * infoI d p.2)).sum =
      ((d.values.getD attr []).map (fun v =>
        (((examples.filter (fun e => decide (getA e attr = v))).length : ℝ) /
          (examples.length : ℝ)) *
        infoI d (examples.filter (fun e => decide (getA e attr = v))))).sum := by
      rw [split_by, List.map_map]
      rfl
    rw [h1]
    have h2 : ((d.values.getD attr []).map (fun v =>
        (((examples.filter (fun e => decide (getA e attr = v))).length : ℝ) /
          (examples.length : ℝ)) *
        infoI d (examples.filter (fun e => decide (getA e attr = v))))).sum =
      ((d.values.getD attr []).map (fun v =>
        (((examples.filter (fun e => decide (getA e attr = v))).length : ℝ) /
          (examples.length : ℝ)) *
        (((d.values.getD d.target []).map (fun t => Real.negMulLog
            ((countV d.target t (examples.filter (fun e => decide (getA e attr = v))) : ℝ) /
             ((examples.filter (fun e => decide (getA e attr = v))).length : ℝ)))).sum))).sum
        / Real.log 2 := by
      rw [← sum_map_div]
      apply congrArg List.sum
      apply List.map_congr_left
      intro v _
      rw [infoI_eq d _ hTnodup (fun e he => hcovT e (List.mem_of_mem_filter he)),
        mul_div_assoc]
    rw [h2, infoI_eq d examples hTnodup hcovT]
    apply (div_le_div_iff_of_pos_right (Real.log_pos (by norm_num))).mpr
    rw [← List.sum_toFinset _ hAnodup, ← List.sum_toFinset _ hTnodup]
    have h3 : ((d.values.getD attr []).toFinset.sum (fun v =>
        (((examples.filter (fun e => decide (getA e attr = v))).length : ℝ) /
          (examples.length : ℝ)) *
        (((d.values.getD d.target []).map (fun t => Real.negMulLog
            ((countV d.target t (examples.filter (fun e => decide (getA e attr = v))) : ℝ) /
             ((examples.filter (fun e => decide (getA e attr = v))).length : ℝ)))).sum))) =
      ((d.values.getD attr []).toFinset.sum (fun v =>
        (((examples.filter (fun e => decide (getA e attr = v))).length : ℝ) /
          (examples.length : ℝ)) *
        ((d.values.getD d.target []).toFinset.sum (fun t => Real.negMulLog
            ((countV d.target t (examples.filter (fun e => decide (getA e attr = v))) : ℝ) /
             ((examples.filter (fun e => decide (getA e attr = v))).length : ℝ)))))) := by
      apply Finset.sum_congr rfl
      intro v _
      rw [List.sum_toFinset _ hTnodup]
    rw [h3]
    have hcast : ∀ (f : Option V → ℕ),
        ((d.values.getD attr []).map (fun v => ((f v) : ℝ))).sum =
          (((d.values.getD attr []).map f).sum : ℝ) := by
      intro f
      rw [Nat.cast_list_sum, List.map_map]
      rfl
    have hlen_nat : ((d.values.getD attr []).map (fun v =>
        (examples.filter (fun e => decide (getA e attr = v))).length)).sum =
        examples.length := by
      have hpt : ((d.values.getD attr []).map (fun v =>
          (examples.filter (fun e => decide (getA e attr = v))).length)) =
        ((d.values.getD attr []).map (fun v =>
          examples.countP (fun e => decide (getA e attr = v)))) := by
        apply List.map_congr_left
        intro v _
        rw [List.countP_eq_length_filter]
      rw [hpt]
      exact sum_countP_key _ (fun e => getA e attr) examples hAnodup hcovA
    have hw1 : (d.values.getD attr []).toFinset.sum (fun v =>
        (((examples.filter (fun e => decide (getA e attr = v))).length : ℝ) /
          (examples.length : ℝ))) = 1 := by
      rw [← Finset.sum_div]
      have hfin : (d.values.getD attr []).toFinset.sum (fun v =>
          (((examples.filter (fun e => decide (getA e attr = v))).length : ℝ))) =
          (examples.length : ℝ) := by
        rw [List.sum_toFinset _ hAnodup,
          hcast (fun v => (examples.filter (fun e => decide (getA e attr = v))).length),
          hlen_nat]
      rw [hfin, div_self hN0]
    apply weighted_entropy_le
      ((d.values.getD attr []).toFinset) ((d.values.getD d.target []).toFinset)
      (fun v => (((examples.filter (fun e => decide (getA e attr = v))).length : ℝ) /
        (examples.length : ℝ)))
      (fun v t => ((countV d.target t
          (examples.filter (fun e => decide (getA e attr = v))) : ℝ) /
        ((examples.filter (fun e => decide (getA e attr = v))).length : ℝ)))
      (fun t => ((countV d.target t examples : ℝ) / (examples.length : ℝ)))
    · intro v _
      exact div_nonneg (Nat.cast_nonneg _) (Nat.cast_nonneg _)
    · exact hw1
    · intro v _ t _
      exact div_nonneg (Nat.cast_nonneg _) (Nat.cast_nonneg _)
    · intro t _
      have hterm : ∀ v,
          ((((examples.filter (fun e => decide (getA e attr = v))).length : ℝ) /
            (examples.length : ℝ)) *
          ((countV d.target t
              (examples.filter (fun e => decide (getA e attr = v))) : ℝ) /
            ((examples.filter (fun e => decide (getA e attr = v))).length : ℝ))) =
          ((countV d.target t
              (examples.filter (fun e => decide (getA e attr = v))) : ℝ) /
            (examples.length : ℝ)) := by
        intro v
        by_cases h : (examples.filter (fun e => decide (getA e attr = v))).length = 0
        · have hle : countV d.target t
              (examples.filter (fun e => decide (getA e attr = v))) ≤
              (examples.filter (fun e => decide (getA e attr = v))).length := by
            rw [countV, List.countP_eq_length_filter]
            exact List.length_filter_le _ _
          have hc0 : countV d.target t
              (examples.filter (fun e => decide (getA e attr = v))) = 0 := by omega
          rw [h, hc0]
          simp
        · have hne2 : (((examples.filter
              (fun e => decide (getA e attr = v))).length : ℝ)) ≠ 0 := by
            exact_mod_cast h
          field_simp
          ring
      rw [Finset.sum_congr rfl (fun v _ => hterm v), ← Finset.sum_div]
      have hfin2 : (d.values.getD attr []).toFinset.sum (fun v =>
          ((countV d.target t
            (examples.filter (fun e => decide (getA e attr = v))) : ℝ))) =
          ((countV d.target t examples : ℝ)) := by
        rw [List.sum_toFinset _ hAnodup,
          hcast (fun v => countV d.target t
            (examples.filter (fun e => decide (getA e attr = v)))),
          sum_countV_split d attr t examples hAnodup hcovA]
      rw [hfin2]
  · -- the gain is at most I(examples): the remainder is nonnegative
    rw [information_gain]
    have hrem : 0 ≤ ((split_by d attr examples).map
        (fun p => ((p.2.length : ℝ) / (examples.length : ℝ)) * infoI d p.2)).sum := by
      apply List.sum_nonneg
      intro x hx
      rcases List.mem_map.mp hx with ⟨pr, _, rfl⟩
      apply mul_nonneg (div_nonneg (Nat.cast_nonneg _) (Nat.cast_nonneg _))
      rw [infoI]
      exact information_content_nonneg _
    linarith

theorem information_gain_bounds_witness :
    0 ≤ information_gain dC2 0 dC2.examples ∧
    information_gain dC2 0 dC2.examples ≤ infoI dC2 dC2.examples :=
  information_gain_bounds dC2 0 dC2.examples (by decide) (by decide) (by decide)
    (by decide) (by decide)

end Aima
